import Mathlib

/-!
Shallow embedding of the memoizing call cache of `src/06_decorator/decorator.py`
and `src/06_decorator/03_decorator.py`, together with the `@cache`-wrapped
`fibonacci` of `decorator.py`.

Python strings are modelled as `List Char`; Python dicts are modelled as
association lists whose insertion `(k, v) :: c` shadows older bindings (on the
cache's miss path the key is absent, so this coincides with `d[k] = v`).
Argument values are modelled by the inductive `PyVal`, covering the value
shapes the repository passes to cached functions: integers, strings, and
(non-hashable) lists of integers.
-/

namespace PyCache

/-- A Python single-quote character, written via its code point. -/
def squo : Char := Char.ofNat 39

/-- Model of a Python argument value: an `int`, a `str`, or a (non-hashable)
`list` of ints — the value shapes exercised by the repository's demos. -/
inductive PyVal where
  | int (n : Int)
  | str (s : String)
  | list (xs : List Int)
deriving DecidableEq, Repr

/-- Whether a value supports Python hashing: ints and strings do, lists never do. -/
def hashable : PyVal → Bool
  | .list _ => false
  | _ => true

/-! ### Decimal rendering, modelling Python `str` on integers -/

/-- Decimal digits of `n` in order, fuel-recursive so that it reduces in the
kernel. `fuel ≥ n` suffices (see `natChars_fuel`). -/
def natChars (fuel n : Nat) : List Char :=
  match fuel with
  | 0 => []
  | fuel + 1 => if n = 0 then [] else natChars fuel (n / 10) ++ [Nat.digitChar (n % 10)]

/-- Model of Python `str` on a natural number. -/
def decChars (n : Nat) : List Char :=
  if n = 0 then ['0'] else natChars n n

/-- Model of Python `str` on an `int` (a minus sign before the digits of the
absolute value for negatives). -/
def intChars : Int → List Char
  | .ofNat n => decChars n
  | .negSucc m => '-' :: decChars (m + 1)

/-! ### Python `str` of tuples, lists and sorted kwargs items -/

/-- The separator `", "` Python uses inside tuple and list displays. -/
def sepChars : List Char := [',', ' ']

/-- Model of `", ".join(pieces)`: the pieces interleaved with `", "`. -/
def interChars : List (List Char) → List Char
  | [] => []
  | [p] => p
  | p :: q :: ps => p ++ sepChars ++ interChars (q :: ps)

/-- Model of Python `repr` on a `PyVal` (what `str` applies to the elements of
a tuple or list display): decimal digits for ints, single-quoted text for
strings, a bracketed display for lists. -/
def pyReprChars : PyVal → List Char
  | .int n => intChars n
  | .str s => squo :: s.data ++ [squo]
  | .list xs => '[' :: interChars (xs.map intChars) ++ [']']

/-- Model of Python `str(args)` for an argument tuple: `()`, `(x,)`, or
`(x, y, ...)`. -/
def tupleChars : List PyVal → List Char
  | [] => ['(', ')']
  | [v] => '(' :: (pyReprChars v ++ [',', ')'])
  | v :: w :: vs => '(' :: (interChars ((v :: w :: vs).map pyReprChars) ++ [')'])

/-- Model of the display of one `kwargs.items()` pair `('name', value)`. -/
def itemChars (n : String) (v : PyVal) : List Char :=
  '(' :: squo :: n.data ++ squo :: ',' :: ' ' :: (pyReprChars v ++ [')'])

/-- Model of Python `str` on a list of kwargs items. -/
def kwChars (kws : List (String × PyVal)) : List Char :=
  '[' :: interChars (kws.map fun p => itemChars p.1 p.2) ++ [']']

/-- Lexicographic comparison of character lists by code point, the order
Python uses to compare strings. -/
def lexLe : List Char → List Char → Bool
  | [], _ => true
  | _ :: _, [] => false
  | a :: as, b :: bs => if a < b then true else if b < a then false else lexLe as bs

/-- Python's `<=` on strings: lexicographic by code point. -/
def nameLe (x y : String) : Bool := lexLe x.data y.data

/-- Insert into a by-name sorted kwargs item list, keeping name order. -/
def insertKw (x : String × PyVal) : List (String × PyVal) → List (String × PyVal)
  | [] => [x]
  | y :: ys => if nameLe x.1 y.1 then x :: y :: ys else y :: insertKw x ys

/-- Model of Python `sorted(kwargs.items())`: the items sorted by name.
(Python compares the tuples lexicographically; dict keys are unique, so only
the names are ever compared.) -/
def sortKw : List (String × PyVal) → List (String × PyVal)
  | [] => []
  | x :: xs => insertKw x (sortKw xs)

/-- A call site: positional arguments in order, and named arguments in
insertion order (a Python dict, so the names are unique). -/
structure Call where
  args : List PyVal
  kwargs : List (String × PyVal)
deriving DecidableEq, Repr

/-- The cache key of `decorator.py` line 79:
`key = str(args) + str(sorted(kwargs.items()))`. -/
def cacheKey (a : Call) : List Char :=
  tupleChars a.args ++ kwChars (sortKw a.kwargs)

/-! ### The cache dict and the wrapper of `decorator.py` -/

/-- Lookup in a Python dict modelled as an association list. -/
def dictGet {κ β : Type} [DecidableEq κ] (k : κ) : List (κ × β) → Option β
  | [] => none
  | (k', v) :: c => if k = k' then some v else dictGet k c

/-- The state owned by one `cache`-wrapped function: the `cache_value` dict,
instrumented with a count of how many times the wrapped computation ran. -/
structure MemoState (R : Type) where
  cache : List (List Char × R)
  invocations : Nat
deriving Repr

/-- The state of a freshly decorated function: `cache_value = {}`. -/
def initMemo {R : Type} : MemoState R := ⟨[], 0⟩

/-- The `wrapper` of `decorator.py` lines 77–88, with the wrapped computation
given as an oracle indexed by the invocation count (so that results of an
impure computation may differ between invocations): compute the key, return
the stored result on a hit, otherwise invoke, store, and return. -/
def callMemo {R : Type} (func : Nat → Call → R) (s : MemoState R) (a : Call) :
    R × MemoState R :=
  let key := cacheKey a
  match dictGet key s.cache with
  | some v => (v, s)
  | none =>
    let result := func s.invocations a
    (result, ⟨(key, result) :: s.cache, s.invocations + 1⟩)

/-- Run a sequence of calls through the wrapper, collecting the results. -/
def runCalls {R : Type} (func : Nat → Call → R) (s : MemoState R) :
    List Call → List R × MemoState R
  | [] => ([], s)
  | a :: as =>
    let step := callMemo func s a
    let rest := runCalls func step.2 as
    (step.1 :: rest.1, rest.2)

/-- Model of `memoized.cache.clear()` through the exposed `wrapper.cache`
attribute (`decorator.py` line 91): the dict is emptied in place. -/
def cacheClear {R : Type} (s : MemoState R) : MemoState R :=
  { s with cache := [] }

/-- A Python exception relevant to this code: the `TypeError` raised for an
unhashable key or a call that does not match the signature. -/
inductive PyErr where
  | typeError
deriving DecidableEq, Repr

/-- The `wrapper` of `decorator.py` lines 77–88 for a computation that may
raise: on a hit the stored result is returned without invoking; on a miss the
computation runs, and if it raises (`Except.error`) the exception propagates
before `cache_value[key] = result` executes, so the dict is left unchanged. -/
def callMemoE {R : Type} (func : Nat → Call → Except PyErr R) (s : MemoState R)
    (a : Call) : Except PyErr R × MemoState R :=
  let key := cacheKey a
  match dictGet key s.cache with
  | some v => (.ok v, s)
  | none =>
    match func s.invocations a with
    | .error e => (.error e, { s with invocations := s.invocations + 1 })
    | .ok r => (.ok r, ⟨(key, r) :: s.cache, s.invocations + 1⟩)

/-! ### The cache of `03_decorator.py` -/

/-- The state of a function decorated by the `cache` of `03_decorator.py`:
its `cache_value` dict is keyed by the raw `args` tuple. -/
structure Memo03State (R : Type) where
  cache : List (List PyVal × R)
  invocations : Nat
deriving Repr

/-- The fresh state of `03_decorator.py`'s `cache`. -/
def initMemo03 {R : Type} : Memo03State R := ⟨[], 0⟩

/-- The `wrapper(*args)` of `03_decorator.py` lines 8–15. A call with keyword
arguments raises `TypeError` at the call boundary (the wrapper declares no
named parameters). `if args in cache_value` hashes the args tuple, so an
unhashable argument raises `TypeError` there, before any lookup, invocation or
store. Otherwise: hit returns the stored result; miss invokes, and on success
stores under the args tuple. -/
def callMemo03 {R : Type} (func : Nat → List PyVal → Except PyErr R)
    (s : Memo03State R) (args : List PyVal) (kwargs : List (String × PyVal)) :
    Except PyErr R × Memo03State R :=
  if kwargs ≠ [] then (.error .typeError, s)
  else if ¬ (args.all hashable) then (.error .typeError, s)
  else
    match dictGet args s.cache with
    | some v => (.ok v, s)
    | none =>
      match func s.invocations args with
      | .error e => (.error e, { s with invocations := s.invocations + 1 })
      | .ok r => (.ok r, ⟨(args, r) :: s.cache, s.invocations + 1⟩)

/-! ### Python call binding, for the signature claim -/

/-- Model of binding a Python call `f(*args, **kwargs)` against a function
whose positional-or-keyword parameters are named `ps`: positionals bind the
leading parameters; each remaining parameter must be supplied by name; a
surplus positional, an unknown or duplicated name, or a missing parameter
raises `TypeError` (`none`). Returns the bound values in parameter order. -/
def bindParams (ps : List String) (args : List PyVal)
    (kwargs : List (String × PyVal)) : Option (List PyVal) :=
  if ps.length < args.length then none
  else if kwargs.any (fun kv => kv.1 ∈ ps.take args.length) then none
  else if kwargs.any (fun kv => kv.1 ∉ ps) then none
  else if (ps.drop args.length).all (fun p => (dictGet p kwargs).isSome) then
    some (args ++ (ps.drop args.length).filterMap (fun p => dictGet p kwargs))
  else none

/-- A direct (uncached) call of a Python function with parameter names `ps`
and body `body`: bind the call, raising `TypeError` when it does not fit the
signature. -/
def pyCall {R : Type} (ps : List String) (body : List PyVal → R) (a : Call) :
    Except PyErr R :=
  match bindParams ps a.args a.kwargs with
  | some vs => .ok (body vs)
  | none => .error .typeError

/-! ### Interleaved concurrent callers of one wrapped function -/

/-- The phase of one caller executing the wrapper body of `decorator.py`:
about to check the dict; past a failed check (between lines 81 and 85); done
computing but not yet past the store at line 86; or returned with a result. -/
inductive TPhase (R : Type) where
  | ready
  | missed
  | computed (r : R)
  | finished (r : R)
deriving DecidableEq, Repr

/-- Shared cache state plus the phase of every concurrent caller. -/
structure ConcState (R : Type) where
  cache : List (List Char × R)
  invocations : Nat
  threads : List (TPhase R)
deriving Repr

/-- `n` callers all about to enter the wrapper of a freshly decorated
function, with the shared `cache_value` dict empty. -/
def concInit {R : Type} (n : Nat) : ConcState R :=
  ⟨[], 0, List.replicate n .ready⟩

/-- One interleaving step by caller `i`, all callers invoking the memoized
function with the same call `a` of the pure computation `func`: a ready
caller performs the dict check (hit returns the stored value, miss proceeds);
a caller past a miss invokes the computation; a caller holding a computed
result stores it and returns it. -/
def concStep {R : Type} (func : Call → R) (a : Call) (s : ConcState R)
    (i : Nat) : ConcState R :=
  match s.threads[i]? with
  | none => s
  | some .ready =>
    match dictGet (cacheKey a) s.cache with
    | some v => { s with threads := s.threads.set i (.finished v) }
    | none => { s with threads := s.threads.set i .missed }
  | some .missed =>
    { s with threads := s.threads.set i (.computed (func a)),
             invocations := s.invocations + 1 }
  | some (.computed r) =>
    { s with cache := (cacheKey a, r) :: s.cache,
             threads := s.threads.set i (.finished r) }
  | some (.finished _) => s

/-- Run the concurrent callers under a schedule: the list of caller indices
in the order the scheduler lets them take one step each. -/
def concRun {R : Type} (func : Call → R) (a : Call) (s : ConcState R) :
    List Nat → ConcState R
  | [] => s
  | i :: sched => concRun func a (concStep func a s i) sched

/-! ### The `@cache`-wrapped fibonacci of `decorator.py` lines 106–111 -/

/-- The uncached recurrence of `fibonacci`'s body: `n` for `n <= 1`,
otherwise the sum of the two preceding values. -/
def fibSpec (n : Int) : Int :=
  if n ≤ 1 then n else fibSpec (n - 1) + fibSpec (n - 2)
termination_by n.toNat
decreasing_by all_goals omega

/-- The memoized `fibonacci`: every call, including the recursive ones, goes
through the wrapper of `decorator.py`, with the `cache_value` dict threaded
explicitly. Its key for argument `n` is `str((n,)) + str([])`. -/
def fibMemo (n : Int) (c : List (List Char × Int)) : Int × List (List Char × Int) :=
  let key := cacheKey ⟨[.int n], []⟩
  match dictGet key c with
  | some v => (v, c)
  | none =>
    if n ≤ 1 then (n, (key, n) :: c)
    else
      let p := fibMemo (n - 1) c
      let q := fibMemo (n - 2) p.2
      (p.1 + q.1, (key, p.1 + q.1) :: q.2)
termination_by n.toNat
decreasing_by all_goals omega

/-- A computation that fails on its first invocation and succeeds afterwards,
the scenario of the spec's error-path example (fails for key `(7,)` once,
then succeeds). Used as a concrete test fixture. -/
def errFn : Nat → Call → Except PyErr Int :=
  fun i _ => if i = 0 then .error .typeError else .ok 35

/-! ### Predicates used by the statements -/

/-- A character that Python's `repr` renders verbatim inside quotes and that
plays no structural role in the key string: not a quote, comma, space,
parenthesis or square bracket. Python identifiers and the repository's demo
strings consist of such characters. -/
def plainChar (c : Char) : Bool :=
  !(c == squo || c == ',' || c == ' ' || c == '(' || c == ')' || c == '[' || c == ']')

/-- A character that may occur inside the rendering of one plain hashable
value: plain, or the quote delimiting a string. -/
def pieceChar (c : Char) : Bool := plainChar c || c == squo

/-- A value whose rendering is structurally unambiguous: ints always are;
strings whose characters are plain are. -/
def plainVal : PyVal → Bool
  | .str s => s.data.all plainChar
  | _ => true

/-- A call whose arguments are hashable with unambiguous renderings and whose
keyword names are plain (as Python identifiers are). -/
def plainCall (a : Call) : Bool :=
  a.args.all (fun v => hashable v && plainVal v) &&
    a.kwargs.all (fun p => p.1.data.all plainChar && (hashable p.2 && plainVal p.2))

/-- Kwargs items listed in nondecreasing name order. -/
def KwSorted (l : List (String × PyVal)) : Prop :=
  l.Pairwise (fun a b => nameLe a.1 b.1 = true)

/-- Every entry the fibonacci cache holds for the key of `n` stores the value
of the uncached recurrence at `n`. -/
def FibCacheOK (c : List (List Char × Int)) : Prop :=
  ∀ n v, dictGet (cacheKey ⟨[.int n], []⟩) c = some v → v = fibSpec n

/-- Invariant of the concurrent runs: any cached value for the shared key is
the computation's value, and so is any value a caller has computed or
returned. -/
def ConcOK {R : Type} (func : Call → R) (a : Call) (s : ConcState R) : Prop :=
  (∀ v, dictGet (cacheKey a) s.cache = some v → v = func a) ∧
    (∀ r, TPhase.computed r ∈ s.threads → r = func a) ∧
    (∀ r, TPhase.finished r ∈ s.threads → r = func a)

/-! ## Basic wrapper lemmas -/

/-- A call whose key the dict already holds returns the stored value and
leaves the state untouched. -/
theorem callMemo_hit {R : Type} (func : Nat → Call → R) (s : MemoState R)
    (a : Call) (v : R) (h : dictGet (cacheKey a) s.cache = some v) :
    callMemo func s a = (v, s) := by
  simp [callMemo, h]

/-- A call whose key the dict does not hold invokes the computation, stores
the result, and returns it. -/
theorem callMemo_miss {R : Type} (func : Nat → Call → R) (s : MemoState R)
    (a : Call) (h : dictGet (cacheKey a) s.cache = none) :
    callMemo func s a =
      (func s.invocations a,
        ⟨(cacheKey a, func s.invocations a) :: s.cache, s.invocations + 1⟩) := by
  simp [callMemo, h]

/-- After any call, the dict holds the returned result under the call's key. -/
theorem callMemo_self_lookup {R : Type} (func : Nat → Call → R) (s : MemoState R)
    (a : Call) :
    dictGet (cacheKey a) (callMemo func s a).2.cache = some (callMemo func s a).1 := by
  cases h : dictGet (cacheKey a) s.cache with
  | some v => simp [callMemo_hit func s a v h, h]
  | none => simp [callMemo_miss func s a h, dictGet]

/-- C1: calling the memoized computation twice with the same argument tuple
invokes the underlying computation exactly once — the first call invokes it,
stores the result under the call's key and returns it (the invocation count
becomes 1); the second call returns the stored result without invoking (the
state, including the invocation count, is unchanged), and both calls return
equal results. -/
theorem c1_call_twice_invokes_once {R : Type} (func : Nat → Call → R) (a : Call) :
    (callMemo func initMemo a).1 = func 0 a ∧
    dictGet (cacheKey a) (callMemo func initMemo a).2.cache
      = some (callMemo func initMemo a).1 ∧
    (callMemo func initMemo a).2.invocations = 1 ∧
    (callMemo func (callMemo func initMemo a).2 a).1 = (callMemo func initMemo a).1 ∧
    (callMemo func (callMemo func initMemo a).2 a).2 = (callMemo func initMemo a).2 := by
  simp [callMemo, initMemo, dictGet]

/-- C4: clearing the exposed cache dict empties it (the dict of a fresh
instance), and a subsequent call with any — in particular a previously
cached — argument tuple re-invokes the underlying computation, storing and
returning its result exactly as a fresh cache miss would. -/
theorem c4_clear_restores_miss {R : Type} (func : Nat → Call → R)
    (s : MemoState R) (a : Call) :
    (cacheClear s).cache = (initMemo (R := R)).cache ∧
    (callMemo func (cacheClear s) a).1 = func s.invocations a ∧
    (callMemo func (cacheClear s) a).2.invocations = s.invocations + 1 ∧
    (callMemo func (cacheClear s) a).2.cache
      = [(cacheKey a, func s.invocations a)] := by
  have h0 : dictGet (cacheKey a) (cacheClear s).cache = none := rfl
  rw [callMemo_miss func (cacheClear s) a h0]
  exact ⟨rfl, rfl, rfl, rfl⟩

/-- C2: when the computation raises on a miss, the exception propagates to
the caller, no entry is stored (the dict is exactly as before), and the very
next call with the same key invokes the computation again rather than
returning a cached failure. -/
theorem c2_error_not_cached {R : Type} (func : Nat → Call → Except PyErr R)
    (s : MemoState R) (a : Call) (e : PyErr)
    (hmiss : dictGet (cacheKey a) s.cache = none)
    (herr : func s.invocations a = .error e) :
    (callMemoE func s a).1 = .error e ∧
    (callMemoE func s a).2.cache = s.cache ∧
    (callMemoE func (callMemoE func s a).2 a).1 = func (s.invocations + 1) a ∧
    (callMemoE func (callMemoE func s a).2 a).2.invocations = s.invocations + 2 := by
  have h1 : callMemoE func s a = (.error e, { s with invocations := s.invocations + 1 }) := by
    simp [callMemoE, hmiss, herr]
  rw [h1]
  refine ⟨rfl, rfl, ?_⟩
  have hmiss2 : dictGet (cacheKey a)
      ({ s with invocations := s.invocations + 1 } : MemoState R).cache = none := hmiss
  cases h2 : func (s.invocations + 1) a with
  | error e2 => simp [callMemoE, hmiss2, h2]
  | ok r => simp [callMemoE, hmiss2, h2]

/-- Witness for C2 at a computation that fails on its first invocation and
succeeds afterwards, called with the tuple `(7,)` on a fresh cache: the
failure surfaces, nothing is stored, and the retry invokes again and gets
the success. -/
theorem c2_error_not_cached_witness :
    dictGet (cacheKey ⟨[.int 7], []⟩) (initMemo (R := Int)).cache = none ∧
    errFn 0 ⟨[.int 7], []⟩ = .error .typeError ∧
    (callMemoE errFn initMemo ⟨[.int 7], []⟩).1 = .error PyErr.typeError ∧
    (callMemoE errFn initMemo ⟨[.int 7], []⟩).2.cache = [] ∧
    (callMemoE errFn (callMemoE errFn initMemo ⟨[.int 7], []⟩).2 ⟨[.int 7], []⟩).1
      = .ok 35 ∧
    (callMemoE errFn (callMemoE errFn initMemo ⟨[.int 7], []⟩).2
      ⟨[.int 7], []⟩).2.invocations = 2 := by
  have h := c2_error_not_cached errFn initMemo ⟨[.int 7], []⟩ .typeError rfl rfl
  exact ⟨rfl, rfl, h.1, h.2.1, h.2.2.1.trans rfl, h.2.2.2⟩

/-- C3: referential consistency is an invariant — an entry the cache holds is
never mutated by any later sequence of calls (even of an impure computation,
modelled by the invocation-indexed oracle), and every result the memoized
computation returns for that entry's key equals the stored value, which is
the first result ever computed for the key. -/
theorem c3_referential_consistency {R : Type} (func : Nat → Call → R)
    (s : MemoState R) (cs : List Call) (k : List Char) (v : R)
    (h : dictGet k s.cache = some v) :
    dictGet k (runCalls func s cs).2.cache = some v ∧
    ∀ p ∈ cs.zip (runCalls func s cs).1, cacheKey p.1 = k → p.2 = v := by
  induction cs generalizing s with
  | nil => simpa [runCalls] using h
  | cons a as ih =>
    cases hl : dictGet (cacheKey a) s.cache with
    | some w =>
      have hstep : callMemo func s a = (w, s) := callMemo_hit func s a w hl
      have tail := ih s h
      refine ⟨by simpa [runCalls, hstep] using tail.1, ?_⟩
      intro p hp hk
      simp only [runCalls, hstep, List.zip_cons_cons, List.mem_cons] at hp
      rcases hp with hp | hp
      · subst hp
        have : dictGet k s.cache = some w := hk ▸ hl
        simpa [h] using this.symm.trans h
      · exact tail.2 p hp hk
    | none =>
      have hstep : callMemo func s a =
          (func s.invocations a,
            ⟨(cacheKey a, func s.invocations a) :: s.cache, s.invocations + 1⟩) :=
        callMemo_miss func s a hl
      have hk2 : k ≠ cacheKey a := fun he => by rw [he, hl] at h; exact Option.noConfusion h
      have h2 : dictGet k ((cacheKey a, func s.invocations a) :: s.cache) = some v := by
        simpa [dictGet, hk2] using h
      have tail := ih ⟨(cacheKey a, func s.invocations a) :: s.cache, s.invocations + 1⟩ h2
      refine ⟨by simpa [runCalls, hstep] using tail.1, ?_⟩
      intro p hp hk
      simp only [runCalls, hstep, List.zip_cons_cons, List.mem_cons] at hp
      rcases hp with hp | hp
      · subst hp
        exact absurd hk hk2.symm
      · exact tail.2 p hp hk

/-- Witness for C3: a cache holding `99` for the key of `(4,)` still holds it,
and keeps returning it, across a run that calls `(4,)` and `(5,)`. -/
theorem c3_referential_consistency_witness :
    dictGet (cacheKey ⟨[.int 4], []⟩)
      [(cacheKey ⟨[.int 4], []⟩, (99 : Int))] = some 99 ∧
    dictGet (cacheKey ⟨[.int 4], []⟩)
      (runCalls (fun _ _ => (0 : Int)) ⟨[(cacheKey ⟨[.int 4], []⟩, 99)], 1⟩
        [⟨[.int 4], []⟩, ⟨[.int 5], []⟩]).2.cache = some 99 ∧
    ∀ p ∈ ([⟨[.int 4], []⟩, ⟨[.int 5], []⟩] : List Call).zip
        (runCalls (fun _ _ => (0 : Int)) ⟨[(cacheKey ⟨[.int 4], []⟩, 99)], 1⟩
          [⟨[.int 4], []⟩, ⟨[.int 5], []⟩]).1,
      cacheKey p.1 = cacheKey ⟨[.int 4], []⟩ → p.2 = 99 := by
  have h := c3_referential_consistency (fun _ _ => (0 : Int))
    ⟨[(cacheKey ⟨[.int 4], []⟩, 99)], 1⟩ [⟨[.int 4], []⟩, ⟨[.int 5], []⟩]
    (cacheKey ⟨[.int 4], []⟩) 99 (by simp [dictGet])
  exact ⟨by simp [dictGet], h.1, h.2⟩

/-! ## Order lemmas for the kwargs sort -/

/-- The lexicographic comparison is total. -/
theorem lexLe_total : ∀ x y : List Char, lexLe x y = true ∨ lexLe y x = true
  | [], _ => .inl rfl
  | _ :: _, [] => .inr rfl
  | a :: as, b :: bs => by
    rcases lt_trichotomy a b with h | h | h
    · left; simp [lexLe, h]
    · subst h
      rcases lexLe_total as bs with ih | ih
      · left; simp [lexLe, lt_irrefl, ih]
      · right; simp [lexLe, lt_irrefl, ih]
    · right; simp [lexLe, h]

/-- The lexicographic comparison is transitive. -/
theorem lexLe_trans : ∀ x y z : List Char,
    lexLe x y = true → lexLe y z = true → lexLe x z = true
  | [], _, _, _, _ => rfl
  | _ :: _, [], _, h₁, _ => by simp [lexLe] at h₁
  | _ :: _, _ :: _, [], _, h₂ => by simp [lexLe] at h₂
  | a :: as, b :: bs, c :: cs, h₁, h₂ => by
    rcases lt_trichotomy a b with hab | hab | hab
    · rcases lt_trichotomy b c with hbc | hbc | hbc
      · simp [lexLe, lt_trans hab hbc]
      · subst hbc; simp [lexLe, hab]
      · simp [lexLe, hbc, lt_asymm hbc] at h₂
    · subst hab
      rcases lt_trichotomy a c with hac | hac | hac
      · simp [lexLe, hac]
      · subst hac
        simp only [lexLe, lt_irrefl, if_false] at h₁ h₂ ⊢
        exact lexLe_trans as bs cs h₁ h₂
      · simp [lexLe, hac, lt_asymm hac] at h₂
    · simp [lexLe, hab, lt_asymm hab] at h₁

/-- The lexicographic comparison is antisymmetric. -/
theorem lexLe_antisymm : ∀ x y : List Char,
    lexLe x y = true → lexLe y x = true → x = y
  | [], [], _, _ => rfl
  | [], _ :: _, _, h₂ => by simp [lexLe] at h₂
  | _ :: _, [], h₁, _ => by simp [lexLe] at h₁
  | a :: as, b :: bs, h₁, h₂ => by
    rcases lt_trichotomy a b with hab | hab | hab
    · simp [lexLe, hab, lt_asymm hab] at h₂
    · subst hab
      simp only [lexLe, lt_irrefl, if_false] at h₁ h₂
      rw [lexLe_antisymm as bs h₁ h₂]
    · simp [lexLe, hab, lt_asymm hab] at h₁

/-- `nameLe` is antisymmetric on strings. -/
theorem nameLe_antisymm (x y : String) (h₁ : nameLe x y = true)
    (h₂ : nameLe y x = true) : x = y :=
  congrArg String.mk (lexLe_antisymm x.data y.data h₁ h₂)

/-! ## The kwargs sort is a sort, and is insensitive to insertion order -/

/-- Inserting permutes consing. -/
theorem insertKw_perm (x : String × PyVal) :
    ∀ l, (insertKw x l).Perm (x :: l)
  | [] => .refl _
  | y :: ys => by
    by_cases h : nameLe x.1 y.1 = true
    · simp [insertKw, h]
    · have he : insertKw x (y :: ys) = y :: insertKw x ys := by simp [insertKw, h]
      rw [he]
      exact ((insertKw_perm x ys).cons y).trans (List.Perm.swap x y ys)

/-- The sort permutes its input. -/
theorem sortKw_perm : ∀ l, (sortKw l).Perm l
  | [] => .refl _
  | x :: xs => (insertKw_perm x (sortKw xs)).trans ((sortKw_perm xs).cons x)

/-- Inserting preserves sortedness. -/
theorem insertKw_sorted (x : String × PyVal) :
    ∀ l, KwSorted l → KwSorted (insertKw x l)
  | [], _ => List.pairwise_singleton _ x
  | y :: ys, hs => by
    rcases List.pairwise_cons.mp hs with ⟨hy, hys⟩
    by_cases h : nameLe x.1 y.1 = true
    · have he : insertKw x (y :: ys) = x :: y :: ys := by simp [insertKw, h]
      rw [KwSorted, he]
      refine List.pairwise_cons.mpr ⟨?_, hs⟩
      intro z hz
      rcases List.mem_cons.mp hz with rfl | hz
      · exact h
      · exact lexLe_trans _ _ _ h (hy z hz)
    · have hyx : nameLe y.1 x.1 = true := by
        rcases lexLe_total x.1.data y.1.data with ht | ht
        · exact absurd ht h
        · exact ht
      have he : insertKw x (y :: ys) = y :: insertKw x ys := by simp [insertKw, h]
      rw [KwSorted, he]
      refine List.pairwise_cons.mpr ⟨?_, insertKw_sorted x ys hys⟩
      intro z hz
      rcases List.mem_cons.mp ((insertKw_perm x ys).subset hz) with rfl | hz2
      · exact hyx
      · exact hy z hz2

/-- The insertion sort sorts. -/
theorem sortKw_sorted : ∀ l, KwSorted (sortKw l)
  | [] => List.Pairwise.nil
  | x :: xs => insertKw_sorted x (sortKw xs) (sortKw_sorted xs)

/-- Two sorted lists that are permutations of each other and have no repeated
names are equal. -/
theorem kwSorted_perm_eq : ∀ l₁ l₂ : List (String × PyVal), l₁.Perm l₂ →
    KwSorted l₁ → KwSorted l₂ → (l₁.map Prod.fst).Nodup → l₁ = l₂
  | [], l₂, hp, _, _, _ => hp.nil_eq
  | a :: t₁, l₂, hp, hs₁, hs₂, hnd => by
    match l₂ with
    | [] => exact absurd hp.symm.nil_eq (by simp)
    | b :: t₂ =>
      rcases List.pairwise_cons.mp hs₁ with ⟨ha, ht₁⟩
      rcases List.pairwise_cons.mp hs₂ with ⟨hb, ht₂⟩
      have hnd2 : a.1 ∉ t₁.map Prod.fst ∧ (t₁.map Prod.fst).Nodup := by
        rw [List.map_cons, List.nodup_cons] at hnd; exact hnd
      have hab : a = b := by
        rcases List.mem_cons.mp (hp.subset (List.mem_cons_self a t₁)) with h | h
        · exact h
        rcases List.mem_cons.mp (hp.symm.subset (List.mem_cons_self b t₂)) with h' | h'
        · exact h'.symm
        have h1 : nameLe b.1 a.1 = true := hb a h
        have h2 : nameLe a.1 b.1 = true := ha b h'
        have heq : a.1 = b.1 := nameLe_antisymm _ _ h2 h1
        exact absurd (by rw [heq]; exact List.mem_map_of_mem Prod.fst h') hnd2.1
      subst hab
      have hpt : t₁.Perm t₂ := hp.cons_inv
      rw [kwSorted_perm_eq t₁ t₂ hpt ht₁ ht₂ hnd2.2]

/-- Sorting is insensitive to the insertion order of the items: two
permutations of the same unique-name item list sort identically. -/
theorem sortKw_congr (l₁ l₂ : List (String × PyVal)) (hp : l₁.Perm l₂)
    (hnd : (l₁.map Prod.fst).Nodup) : sortKw l₁ = sortKw l₂ :=
  kwSorted_perm_eq _ _
    ((sortKw_perm l₁).trans (hp.trans (sortKw_perm l₂).symm))
    (sortKw_sorted l₁) (sortKw_sorted l₂)
    (hnd.perm ((sortKw_perm l₁).map Prod.fst).symm)

/-- C5: the cache key is a pure deterministic function of the argument values
(it is computed by `cacheKey` alone, with no other inputs), insensitive to
the insertion order of the named arguments: two calls with the same names and
values in different insertion orders produce an identical key, and therefore
the second call is a cache hit — it returns the first call's result and
leaves the state (including the invocation count) unchanged. -/
theorem c5_kwargs_order_insensitive {R : Type} (func : Nat → Call → R)
    (s : MemoState R) (args : List PyVal) (kw₁ kw₂ : List (String × PyVal))
    (hperm : kw₁.Perm kw₂) (hnd : (kw₁.map Prod.fst).Nodup) :
    cacheKey ⟨args, kw₁⟩ = cacheKey ⟨args, kw₂⟩ ∧
    (callMemo func (callMemo func s ⟨args, kw₁⟩).2 ⟨args, kw₂⟩).1
      = (callMemo func s ⟨args, kw₁⟩).1 ∧
    (callMemo func (callMemo func s ⟨args, kw₁⟩).2 ⟨args, kw₂⟩).2
      = (callMemo func s ⟨args, kw₁⟩).2 := by
  have hkey : cacheKey ⟨args, kw₁⟩ = cacheKey ⟨args, kw₂⟩ := by
    show tupleChars args ++ kwChars (sortKw kw₁)
      = tupleChars args ++ kwChars (sortKw kw₂)
    rw [sortKw_congr kw₁ kw₂ hperm hnd]
  have hl : dictGet (cacheKey ⟨args, kw₂⟩) (callMemo func s ⟨args, kw₁⟩).2.cache
      = some (callMemo func s ⟨args, kw₁⟩).1 :=
    hkey ▸ callMemo_self_lookup func s ⟨args, kw₁⟩
  have hhit := callMemo_hit func (callMemo func s ⟨args, kw₁⟩).2 ⟨args, kw₂⟩ _ hl
  exact ⟨hkey, by rw [hhit], by rw [hhit]⟩

/-- Witness for C5: the named arguments `b=3, a=1` and `a=1, b=3` produce the
same key, and the second call hits the cache of the first. -/
theorem c5_kwargs_order_insensitive_witness :
    ([("b", PyVal.int 3), ("a", PyVal.int 1)] : List (String × PyVal)).Perm
      [("a", PyVal.int 1), ("b", PyVal.int 3)] ∧
    ((([("b", PyVal.int 3), ("a", PyVal.int 1)] : List (String × PyVal)).map
      Prod.fst).Nodup) ∧
    cacheKey ⟨[], [("b", .int 3), ("a", .int 1)]⟩
      = cacheKey ⟨[], [("a", .int 1), ("b", .int 3)]⟩ ∧
    (callMemo (fun i _ => i) (callMemo (fun i _ => i) initMemo
        ⟨[], [("b", .int 3), ("a", .int 1)]⟩).2
        ⟨[], [("a", .int 1), ("b", .int 3)]⟩).1
      = (callMemo (fun i _ => i) initMemo ⟨[], [("b", .int 3), ("a", .int 1)]⟩).1 ∧
    (callMemo (fun i _ => i) (callMemo (fun i _ => i) initMemo
        ⟨[], [("b", .int 3), ("a", .int 1)]⟩).2
        ⟨[], [("a", .int 1), ("b", .int 3)]⟩).2
      = (callMemo (fun i _ => i) initMemo ⟨[], [("b", .int 3), ("a", .int 1)]⟩).2 := by
  have h := c5_kwargs_order_insensitive (fun i _ => i) initMemo []
    [("b", .int 3), ("a", .int 1)] [("a", .int 1), ("b", .int 3)]
    (by decide) (by decide)
  exact ⟨by decide, by decide, h.1, h.2.1, h.2.2⟩

/-! ## Concurrency: the source has no at-most-once guarantee -/

/-- One interleaving step preserves the run invariant. -/
theorem concStep_inv {R : Type} (func : Call → R) (a : Call) (s : ConcState R)
    (i : Nat) (h : ConcOK func a s) : ConcOK func a (concStep func a s i) := by
  obtain ⟨hc, hcomp, hfin⟩ := h
  cases hth : s.threads[i]? with
  | none =>
    have hstep : concStep func a s i = s := by simp [concStep, hth]
    rw [hstep]; exact ⟨hc, hcomp, hfin⟩
  | some ph =>
    have hmem : ph ∈ s.threads := List.getElem?_mem hth
    cases ph with
    | ready =>
      cases hl : dictGet (cacheKey a) s.cache with
      | some v =>
        have hstep : concStep func a s i =
            { s with threads := s.threads.set i (.finished v) } := by
          simp [concStep, hth, hl]
        rw [hstep]
        refine ⟨hc, ?_, ?_⟩ <;> intro r hr <;>
          rcases List.mem_or_eq_of_mem_set hr with hr | hr
        · exact hcomp r hr
        · exact absurd hr (by simp)
        · exact hfin r hr
        · have : r = v := by simpa using hr
          exact this ▸ hc v hl
      | none =>
        have hstep : concStep func a s i =
            { s with threads := s.threads.set i .missed } := by
          simp [concStep, hth, hl]
        rw [hstep]
        refine ⟨hc, ?_, ?_⟩ <;> intro r hr <;>
          rcases List.mem_or_eq_of_mem_set hr with hr | hr
        · exact hcomp r hr
        · exact absurd hr (by simp)
        · exact hfin r hr
        · exact absurd hr (by simp)
    | missed =>
      have hstep : concStep func a s i =
          { s with threads := s.threads.set i (.computed (func a)),
                   invocations := s.invocations + 1 } := by
        simp [concStep, hth]
      rw [hstep]
      refine ⟨hc, ?_, ?_⟩ <;> intro r hr <;>
        rcases List.mem_or_eq_of_mem_set hr with hr | hr
      · exact hcomp r hr
      · simpa using hr
      · exact hfin r hr
      · exact absurd hr (by simp)
    | computed r0 =>
      have hr0 : r0 = func a := hcomp r0 hmem
      have hstep : concStep func a s i =
          { s with cache := (cacheKey a, r0) :: s.cache,
                   threads := s.threads.set i (.finished r0) } := by
        simp [concStep, hth]
      rw [hstep]
      refine ⟨?_, ?_, ?_⟩
      · intro v hv
        simp only [dictGet, if_pos rfl] at hv
        exact ((by simpa using hv : r0 = v).symm).trans hr0
      all_goals intro r hr
      all_goals rcases List.mem_or_eq_of_mem_set hr with hr | hr
      · exact hcomp r hr
      · exact absurd hr (by simp)
      · exact hfin r hr
      · exact (by simpa using hr : r = r0).trans hr0
    | finished r0 =>
      have hstep : concStep func a s i = s := by simp [concStep, hth]
      rw [hstep]; exact ⟨hc, hcomp, hfin⟩

/-- The invariant holds along any schedule. -/
theorem concRun_inv {R : Type} (func : Call → R) (a : Call) :
    ∀ (sched : List Nat) (s : ConcState R), ConcOK func a s →
      ConcOK func a (concRun func a s sched)
  | [], _, h => h
  | i :: sched, s, h =>
    concRun_inv func a sched (concStep func a s i) (concStep_inv func a s i h)

/-- Counterexample to C7: two concurrent callers of the same key on a fresh
cache, interleaved so that both check the dict before either stores, both
complete — yet the underlying computation is invoked twice, not exactly
once. -/
theorem c7_counterexample :
    (concRun (fun _ => (42 : Int)) ⟨[.int 7], []⟩ (concInit 2)
      [0, 1, 0, 1, 0, 1]).invocations = 2 ∧
    (concRun (fun _ => (42 : Int)) ⟨[.int 7], []⟩ (concInit 2)
      [0, 1, 0, 1, 0, 1]).threads = [.finished 42, .finished 42] := by
  decide

/-- C7 as amended: under concurrent invocation with a shared key from a fresh
cache, the source gives no at-most-once guarantee (see the counterexample,
where two concurrent misses each invoke the computation), but every caller
that completes, under any schedule, receives the same result — the value of
the computation at the shared call. -/
theorem c7_all_callers_same_result {R : Type} (func : Call → R) (a : Call)
    (n : Nat) (sched : List Nat) (r : R)
    (h : TPhase.finished r ∈ (concRun func a (concInit n) sched).threads) :
    r = func a := by
  have hinit : ConcOK func a (concInit (R := R) n) := by
    refine ⟨fun v hv => by simp [concInit, dictGet] at hv, ?_, ?_⟩ <;>
      intro r hr <;> simp [concInit] at hr
  exact (concRun_inv func a sched (concInit n) hinit).2.2 r h

/-- Witness for the amended C7: in the interleaved two-caller run, the first
caller's returned result is the computation's value. -/
theorem c7_all_callers_same_result_witness :
    TPhase.finished (42 : Int) ∈ (concRun (fun _ => (42 : Int)) ⟨[.int 7], []⟩
      (concInit 2) [0, 1, 0, 1, 0, 1]).threads ∧
    (42 : Int) = (fun _ => (42 : Int)) (⟨[.int 7], []⟩ : Call) :=
  ⟨by decide, c7_all_callers_same_result (fun _ => (42 : Int)) ⟨[.int 7], []⟩ 2
    [0, 1, 0, 1, 0, 1] 42 (by decide)⟩

/-! ## Hashability of arguments -/

/-- Counterexample to C8: `decorator.py`'s wrapper derives a string key with
`str`, never hashing the arguments, so a call with a non-hashable list
argument raises nothing: it invokes the computation, returns normally, and
stores an entry (the cache state changes), contradicting "an error is raised
and the cache is unchanged for every call with a non-hashable argument". -/
theorem c8_counterexample :
    hashable (.list [1]) = false ∧
    (callMemo (fun _ _ => (5 : Int)) initMemo ⟨[.list [1]], []⟩).1 = 5 ∧
    (callMemo (fun _ _ => (5 : Int)) initMemo ⟨[.list [1]], []⟩).2.invocations = 1 ∧
    (callMemo (fun _ _ => (5 : Int)) initMemo ⟨[.list [1]], []⟩).2.cache
      ≠ (initMemo (R := Int)).cache := by
  decide

/-- C8 as amended: only `03_decorator.py`'s cache, which keys the dict by the
args tuple itself, raises for a non-hashable argument: the `TypeError` from
hashing the tuple at `if args in cache_value` surfaces immediately to the
caller, with the cache state unchanged and the computation not invoked.
(`decorator.py`'s string-keyed cache never raises for non-hashable
arguments — see the counterexample.) -/
theorem c8_unhashable_typeerror_03 {R : Type}
    (func : Nat → List PyVal → Except PyErr R) (s : Memo03State R)
    (args : List PyVal) (h : ∃ v ∈ args, hashable v = false) :
    callMemo03 func s args [] = (.error .typeError, s) := by
  have hall : args.all hashable = false := by
    cases hb : args.all hashable with
    | false => rfl
    | true =>
      rcases h with ⟨v, hv, hv2⟩
      exact absurd (List.all_eq_true.mp hb v hv) (by simp [hv2])
  simp [callMemo03, hall]

/-- Witness for the amended C8: calling `03_decorator.py`'s memoized function
with the non-hashable list `[1]` raises `TypeError` and leaves the state
unchanged. -/
theorem c8_unhashable_typeerror_03_witness :
    (∃ v ∈ [PyVal.list [1]], hashable v = false) ∧
    callMemo03 (fun _ _ => .ok (5 : Int)) initMemo03 [.list [1]] []
      = (.error .typeError, initMemo03) :=
  ⟨⟨.list [1], by decide, rfl⟩,
    c8_unhashable_typeerror_03 (fun _ _ => .ok (5 : Int)) initMemo03 [.list [1]]
      ⟨.list [1], by decide, rfl⟩⟩

/-! ## Call signatures of the wrappers -/

/-- Counterexample to C9: the wrapped computation `long_running_function(a, b)`
accepts its second argument by keyword, but `03_decorator.py`'s memoized
callable `wrapper(*args)` raises `TypeError` for the same call — the memoized
callable does not have the same argument signature as the computation. -/
theorem c9_counterexample :
    pyCall ["a", "b"] (fun _ => (5 : Int)) ⟨[.int 2], [("b", .int 3)]⟩ = .ok 5 ∧
    (callMemo03 (fun _ _ => .ok (5 : Int)) initMemo03 [.int 2]
      [("b", .int 3)]).1 = .error .typeError :=
  ⟨rfl, rfl⟩

/-- C9 as amended: `decorator.py`'s `wrapper(*args, **kwargs)` forwards every
positional/keyword combination unchanged, so on a miss the memoized call's
outcome (acceptance or `TypeError`) is exactly the direct call's outcome —
that wrapper has the computation's argument signature; `03_decorator.py`'s
`wrapper(*args)`, by contrast, raises `TypeError` for any call that passes an
argument by keyword, whatever the wrapped computation accepts. -/
theorem c9_signature {R : Type} (ps : List String) (body : List PyVal → R)
    (s : MemoState R) (a : Call)
    (func3 : Nat → List PyVal → Except PyErr R) (s3 : Memo03State R)
    (args3 : List PyVal) (kw3 : List (String × PyVal))
    (hmiss : dictGet (cacheKey a) s.cache = none) (hkw : kw3 ≠ []) :
    (callMemoE (fun _ => pyCall ps body) s a).1 = pyCall ps body a ∧
    callMemo03 func3 s3 args3 kw3 = (.error .typeError, s3) := by
  constructor
  · cases hc : pyCall ps body a with
    | error e => simp [callMemoE, hmiss, hc]
    | ok r => simp [callMemoE, hmiss, hc]
  · simp [callMemo03, hkw]

/-- Witness for the amended C9 at the call `(2, b=3)` of a two-parameter
function on fresh caches. -/
theorem c9_signature_witness :
    dictGet (cacheKey ⟨[.int 2], [("b", .int 3)]⟩) (initMemo (R := Int)).cache
      = none ∧
    ([("b", PyVal.int 3)] : List (String × PyVal)) ≠ [] ∧
    (callMemoE (fun _ => pyCall ["a", "b"] (fun _ => (5 : Int))) initMemo
      ⟨[.int 2], [("b", .int 3)]⟩).1
      = pyCall ["a", "b"] (fun _ => (5 : Int)) ⟨[.int 2], [("b", .int 3)]⟩ ∧
    callMemo03 (fun _ _ => .ok (5 : Int)) initMemo03 [.int 2] [("b", .int 3)]
      = (.error .typeError, initMemo03) := by
  have h := c9_signature ["a", "b"] (fun _ => (5 : Int)) initMemo
    ⟨[.int 2], [("b", .int 3)]⟩ (fun _ _ => .ok (5 : Int)) initMemo03
    [.int 2] [("b", .int 3)] rfl (by decide)
  exact ⟨rfl, by decide, h.1, h.2⟩

/-! ## Unique splitting of the key string at a marker character -/

/-- If a marker occurs in neither prefix, a concatenation splits uniquely at
its first occurrence. -/
theorem splitMarker {α : Type} (m : α) :
    ∀ (xs ys us vs : List α), m ∉ xs → m ∉ ys →
      xs ++ m :: us = ys ++ m :: vs → xs = ys ∧ us = vs
  | [], [], us, vs, _, _, h => ⟨rfl, by simpa using h⟩
  | [], y :: ys, us, vs, _, hy, h => by
    simp only [List.nil_append, List.cons_append, List.cons.injEq] at h
    exact absurd (by rw [h.1]; exact List.mem_cons_self y ys) hy
  | x :: xs, [], us, vs, hx, _, h => by
    simp only [List.nil_append, List.cons_append, List.cons.injEq] at h
    exact absurd (by rw [← h.1]; exact List.mem_cons_self x xs) hx
  | x :: xs, y :: ys, us, vs, hx, hy, h => by
    simp only [List.cons_append, List.cons.injEq] at h
    obtain ⟨rfl, h2⟩ := h
    obtain ⟨h3, h4⟩ := splitMarker m xs ys us vs
      (fun hm => hx (List.mem_cons_of_mem _ hm))
      (fun hm => hy (List.mem_cons_of_mem _ hm)) h2
    exact ⟨by rw [h3], h4⟩

/-- Appending one element on the right is injective in both parts. -/
theorem append_singleton_inj {α : Type} {xs ys : List α} {a b : α}
    (h : xs ++ [a] = ys ++ [b]) : xs = ys ∧ a = b := by
  have h2 := congrArg List.reverse h
  simp only [List.reverse_append, List.reverse_cons, List.reverse_nil,
    List.nil_append, List.singleton_append, List.cons.injEq] at h2
  exact ⟨List.reverse_injective h2.2, h2.1⟩

/-! ## The decimal rendering is injective and structurally inert -/

/-- Any sufficient fuel produces the same digits. -/
theorem natChars_fuel : ∀ f₁ f₂ n : Nat, n ≤ f₁ → n ≤ f₂ →
    natChars f₁ n = natChars f₂ n
  | 0, f₂, n, h₁, _ => by
    interval_cases n
    cases f₂ <;> simp [natChars]
  | f₁ + 1, 0, n, _, h₂ => by
    interval_cases n
    simp [natChars]
  | f₁ + 1, f₂ + 1, n, h₁, h₂ => by
    by_cases hn : n = 0
    · simp [natChars, hn]
    · have hd : n / 10 ≤ f₁ := by omega
      have hd2 : n / 10 ≤ f₂ := by omega
      simp only [natChars, hn, if_false]
      rw [natChars_fuel f₁ f₂ (n / 10) hd hd2]

/-- A digit below ten renders as a structurally inert character that is
neither the quote nor the minus sign. -/
theorem digitChar_ok (d : Nat) (h : d < 10) :
    pieceChar (Nat.digitChar d) = true ∧ Nat.digitChar d ≠ squo
      ∧ Nat.digitChar d ≠ '-' := by
  interval_cases d <;> exact (by decide)

/-- Digits below ten render injectively. -/
theorem digitChar_inj (d e : Nat) (hd : d < 10) (he : e < 10)
    (h : Nat.digitChar d = Nat.digitChar e) : d = e := by
  interval_cases d <;> interval_cases e <;> first | rfl | exact absurd h (by decide)

/-- Every character of the digit rendering is structurally inert and is
neither the quote nor the minus sign. -/
theorem natChars_ok : ∀ f n : Nat, ∀ c ∈ natChars f n,
    pieceChar c = true ∧ c ≠ squo ∧ c ≠ '-'
  | 0, n => by simp [natChars]
  | f + 1, n => by
    by_cases hn : n = 0
    · simp [natChars, hn]
    · simp only [natChars, hn, if_false]
      intro c hc
      rcases List.mem_append.mp hc with hc | hc
      · exact natChars_ok f (n / 10) c hc
      · rcases List.mem_singleton.mp hc with rfl
        exact digitChar_ok (n % 10) (Nat.mod_lt n (by omega))

/-- The digit rendering is empty only for zero (under sufficient fuel). -/
theorem natChars_eq_nil (f n : Nat) (h : natChars f n = []) (hf : n ≤ f) :
    n = 0 := by
  cases f with
  | zero => omega
  | succ f =>
    by_cases hn : n = 0
    · exact hn
    · simp [natChars, hn] at h

/-- The digit rendering is injective (under sufficient fuel). -/
theorem natChars_inj : ∀ f₁ f₂ n m : Nat, n ≤ f₁ → m ≤ f₂ →
    natChars f₁ n = natChars f₂ m → n = m
  | 0, f₂, n, m, h₁, h₂, h => by
    interval_cases n
    exact (natChars_eq_nil f₂ m (by simpa [natChars] using h.symm) h₂).symm
  | f₁ + 1, f₂, n, m, h₁, h₂, h => by
    by_cases hn : n = 0
    · subst hn
      have h0 : natChars f₂ m = [] := by simpa [natChars] using h.symm
      exact (natChars_eq_nil f₂ m h0 h₂).symm
    · by_cases hm : m = 0
      · subst hm
        have h0 : natChars (f₁ + 1) n = [] := by
          cases f₂ <;> simpa [natChars] using h
        exact absurd (natChars_eq_nil _ n h0 h₁) hn
      · cases f₂ with
        | zero => omega
        | succ f₂ =>
          simp only [natChars, hn, hm, if_false] at h
          obtain ⟨hpre, hlast⟩ := append_singleton_inj h
          have e1 : n / 10 = m / 10 :=
            natChars_inj f₁ f₂ (n / 10) (m / 10) (by omega) (by omega) hpre
          have e2 : n % 10 = m % 10 :=
            digitChar_inj _ _ (Nat.mod_lt n (by omega)) (Nat.mod_lt m (by omega))
              hlast
          omega

/-- Every character of the rendering of a natural number is structurally
inert and is neither the quote nor the minus sign. -/
theorem decChars_ok (n : Nat) : ∀ c ∈ decChars n,
    pieceChar c = true ∧ c ≠ squo ∧ c ≠ '-' := by
  by_cases hn : n = 0
  · intro c hc
    simp [decChars, hn] at hc
    subst hc
    exact (by decide)
  · simp only [decChars, hn, if_false]
    exact natChars_ok n n

/-- The rendering of a natural number is never the empty string. -/
theorem decChars_ne_nil (n : Nat) : decChars n ≠ [] := by
  by_cases hn : n = 0
  · simp [decChars, hn]
  · simp only [decChars, hn, if_false]
    intro h
    exact hn (natChars_eq_nil n n h le_rfl)

/-- A nonzero number never renders as the single digit zero. -/
theorem natChars_ne_zero_str (m : Nat) (hm : m ≠ 0) : natChars m m ≠ ['0'] := by
  rcases m with _ | m0
  · exact absurd rfl hm
  · intro h
    rw [show natChars (m0 + 1) (m0 + 1) = if (m0 + 1) = 0 then [] else
        natChars m0 ((m0 + 1) / 10) ++ [Nat.digitChar ((m0 + 1) % 10)] from rfl,
      if_neg (Nat.succ_ne_zero m0)] at h
    have h2 : natChars m0 ((m0 + 1) / 10) ++ [Nat.digitChar ((m0 + 1) % 10)]
        = ([] : List Char) ++ ['0'] := by simpa using h
    obtain ⟨hpre, hlast⟩ := append_singleton_inj h2
    have hq : (m0 + 1) / 10 = 0 := natChars_eq_nil m0 _ hpre (by omega)
    have hr : (m0 + 1) % 10 = 0 :=
      digitChar_inj _ 0 (Nat.mod_lt _ (by omega)) (by omega) hlast
    omega

/-- Natural numbers render injectively. -/
theorem decChars_inj (n m : Nat) (h : decChars n = decChars m) : n = m := by
  by_cases hn : n = 0 <;> by_cases hm : m = 0
  · omega
  · exfalso
    rw [decChars, if_pos hn, decChars, if_neg hm] at h
    exact natChars_ne_zero_str m hm h.symm
  · exfalso
    rw [decChars, if_neg hn, decChars, if_pos hm] at h
    exact natChars_ne_zero_str n hn h
  · rw [decChars, if_neg hn, decChars, if_neg hm] at h
    exact natChars_inj n m n m le_rfl le_rfl h

/-- Every character of an integer rendering is structurally inert and is not
the quote. -/
theorem intChars_ok (k : Int) : ∀ c ∈ intChars k,
    pieceChar c = true ∧ c ≠ squo := by
  cases k with
  | ofNat n => exact fun c hc => ⟨(decChars_ok n c hc).1, (decChars_ok n c hc).2.1⟩
  | negSucc m =>
    intro c hc
    rcases List.mem_cons.mp hc with rfl | hc
    · exact (by decide)
    · exact ⟨(decChars_ok (m + 1) c hc).1, (decChars_ok (m + 1) c hc).2.1⟩

/-- An integer rendering is never empty. -/
theorem intChars_ne_nil (k : Int) : intChars k ≠ [] := by
  cases k with
  | ofNat n => exact decChars_ne_nil n
  | negSucc m => simp [intChars]

/-- Integers render injectively. -/
theorem intChars_inj (k l : Int) (h : intChars k = intChars l) : k = l := by
  cases k with
  | ofNat n =>
    cases l with
    | ofNat n' => exact congrArg Int.ofNat (decChars_inj n n' h)
    | negSucc m' =>
      exfalso
      have hm : '-' ∈ decChars n := by
        rw [show decChars n = intChars (Int.ofNat n) from rfl, h]
        exact List.mem_cons_self _ _
      exact absurd rfl (decChars_ok n '-' hm).2.2
  | negSucc m =>
    cases l with
    | ofNat n' =>
      exfalso
      have hm : '-' ∈ decChars n' := by
        rw [show decChars n' = intChars (Int.ofNat n') from rfl, ← h]
        exact List.mem_cons_self _ _
      exact absurd rfl (decChars_ok n' '-' hm).2.2
    | negSucc m' =>
      simp only [intChars, List.cons.injEq, true_and] at h
      have h2 : m + 1 = m' + 1 := decChars_inj _ _ h
      exact congrArg Int.negSucc (by omega)

/-! ## Structurally inert characters never collide with the key syntax -/

/-- A structurally inert character is none of the key's structural
characters. -/
theorem pieceChar_not_special {c : Char} (h : pieceChar c = true) :
    c ≠ ',' ∧ c ≠ ' ' ∧ c ≠ '(' ∧ c ≠ ')' ∧ c ≠ '[' ∧ c ≠ ']' := by
  refine ⟨?_, ?_, ?_, ?_, ?_, ?_⟩ <;> rintro rfl <;> exact absurd h (by decide)

/-- A marker character that is not structurally inert occurs in no list of
inert characters. -/
theorem marker_not_mem {p : List Char} (hp : ∀ c ∈ p, pieceChar c = true)
    {m : Char} (hm : pieceChar m = false) : m ∉ p := fun h => by
  rw [hp m h] at hm
  exact Bool.noConfusion hm

/-- Every character of the rendering of a hashable plain value is
structurally inert. -/
theorem pyRepr_ok (v : PyVal) (hh : hashable v = true) (hp : plainVal v = true) :
    ∀ c ∈ pyReprChars v, pieceChar c = true := by
  cases v with
  | int n => exact fun c hc => (intChars_ok n c hc).1
  | str s =>
    intro c hc
    by_cases hq : c = squo
    · subst hq
      exact (by decide)
    · have hcs : c ∈ s.data := by
        have hc2 : c ∈ (squo :: s.data) ++ [squo] := hc
        rcases List.mem_append.mp hc2 with h1 | h1
        · rcases List.mem_cons.mp h1 with rfl | h1
          · exact absurd rfl hq
          · exact h1
        · rcases List.mem_singleton.mp h1 with rfl
          exact absurd rfl hq
      have := List.all_eq_true.mp (by simpa [plainVal] using hp) c hcs
      simp only [pieceChar, this, Bool.true_or]
  | list xs => exact absurd hh (by simp [hashable])

/-- Renderings of values are never empty. -/
theorem pyRepr_ne_nil (v : PyVal) : pyReprChars v ≠ [] := by
  cases v with
  | int n => exact intChars_ne_nil n
  | str s => simp [pyReprChars]
  | list xs => simp [pyReprChars]

/-- Renderings of hashable plain values are injective: the quote delimiter
separates strings from integers, quotes strip off, and integer renderings
are injective. -/
theorem pyRepr_inj (v w : PyVal) (hhv : hashable v = true)
    (hpv : plainVal v = true) (hhw : hashable w = true)
    (hpw : plainVal w = true) (h : pyReprChars v = pyReprChars w) : v = w := by
  cases v with
  | list xs => exact absurd hhv (by simp [hashable])
  | int n =>
    cases w with
    | list ys => exact absurd hhw (by simp [hashable])
    | int m => exact congrArg PyVal.int (intChars_inj n m h)
    | str t =>
      exfalso
      have hm : squo ∈ intChars n := by
        rw [show intChars n = pyReprChars (.int n) from rfl, h]
        exact List.mem_cons_self _ _
      exact absurd rfl (intChars_ok n squo hm).2
  | str s =>
    cases w with
    | list ys => exact absurd hhw (by simp [hashable])
    | int m =>
      exfalso
      have hm : squo ∈ intChars m := by
        rw [show intChars m = pyReprChars (.int m) from rfl, ← h]
        exact List.mem_cons_self _ _
      exact absurd rfl (intChars_ok m squo hm).2
    | str t =>
      obtain ⟨hdata, _⟩ := append_singleton_inj
        (show (squo :: s.data) ++ [squo] = (squo :: t.data) ++ [squo] from h)
      have hd2 : s.data = t.data := by injection hdata
      exact congrArg PyVal.str (congrArg String.mk hd2)

/-! ## Injectivity of the comma-joined display -/

/-- Characters of a join come from a piece or from the separator. -/
theorem mem_interChars : ∀ ps : List (List Char), ∀ c ∈ interChars ps,
    (∃ p ∈ ps, c ∈ p) ∨ c = ',' ∨ c = ' '
  | [], c, hc => by simp [interChars] at hc
  | [p], c, hc => .inl ⟨p, List.mem_singleton_self p, by simpa [interChars] using hc⟩
  | p :: q :: ps, c, hc => by
    simp only [interChars, List.append_assoc, List.mem_append] at hc
    rcases hc with hc | hc | hc
    · exact .inl ⟨p, List.mem_cons_self _ _, hc⟩
    · rcases (by simpa [sepChars] using hc : c = ',' ∨ c = ' ') with rfl | rfl
      · exact .inr (.inl rfl)
      · exact .inr (.inr rfl)
    · rcases mem_interChars (q :: ps) c hc with ⟨r, hr, hcr⟩ | hc
      · exact .inl ⟨r, List.mem_cons_of_mem _ hr, hcr⟩
      · exact .inr hc

/-- Joining comma-free nonempty pieces with `", "` is injective. -/
theorem interChars_inj : ∀ ps qs : List (List Char),
    (∀ p ∈ ps, ',' ∉ p ∧ p ≠ []) → (∀ q ∈ qs, ',' ∉ q ∧ q ≠ []) →
    interChars ps = interChars qs → ps = qs
  | [], [], _, _, _ => rfl
  | [], [q], _, hq, h => by
    exact absurd (by simpa [interChars] using h.symm) (hq q (List.mem_singleton_self q)).2
  | [], q :: q' :: qs, _, _, h => by
    simp [interChars, sepChars, List.append_eq_nil] at h
  | [p], [], hp, _, h => by
    exact absurd (by simpa [interChars] using h) (hp p (List.mem_singleton_self p)).2
  | p :: p' :: ps, [], _, _, h => by
    simp [interChars, sepChars, List.append_eq_nil] at h
  | [p], [q], _, _, h => by
    rw [show interChars [p] = p from rfl, show interChars [q] = q from rfl] at h
    rw [h]
  | [p], q :: q' :: qs, hp, _, h => by
    exfalso
    rw [show interChars [p] = p from rfl] at h
    have : ',' ∈ p := by
      rw [h]
      simp [interChars, sepChars]
    exact (hp p (List.mem_singleton_self p)).1 this
  | p :: p' :: ps, [q], _, hq, h => by
    exfalso
    rw [show interChars [q] = q from rfl] at h
    have : ',' ∈ q := by
      rw [← h]
      simp [interChars, sepChars]
    exact (hq q (List.mem_singleton_self q)).1 this
  | p :: p' :: ps, q :: q' :: qs, hp, hq, h => by
    have h2 : p ++ ',' :: (' ' :: interChars (p' :: ps))
        = q ++ ',' :: (' ' :: interChars (q' :: qs)) := by
      simpa [interChars, sepChars, List.append_assoc] using h
    obtain ⟨hpq, htail⟩ := splitMarker ',' _ _ _ _
      (hp p (List.mem_cons_self _ _)).1 (hq q (List.mem_cons_self _ _)).1 h2
    have htail2 : interChars (p' :: ps) = interChars (q' :: qs) := by
      simpa using htail
    have hrest := interChars_inj (p' :: ps) (q' :: qs)
      (fun r hr => hp r (List.mem_cons_of_mem _ hr))
      (fun r hr => hq r (List.mem_cons_of_mem _ hr)) htail2
    rw [hpq, hrest]

/-- Mapped renderings determine the values. -/
theorem pyReprList_inj : ∀ vs ws : List PyVal,
    (∀ v ∈ vs, hashable v = true ∧ plainVal v = true) →
    (∀ w ∈ ws, hashable w = true ∧ plainVal w = true) →
    vs.map pyReprChars = ws.map pyReprChars → vs = ws
  | [], [], _, _, _ => rfl
  | [], _ :: _, _, _, h => by simp at h
  | _ :: _, [], _, _, h => by simp at h
  | v :: vs, w :: ws, hv, hw, h => by
    simp only [List.map_cons, List.cons.injEq] at h
    rw [pyRepr_inj v w (hv v (List.mem_cons_self _ _)).1
        (hv v (List.mem_cons_self _ _)).2 (hw w (List.mem_cons_self _ _)).1
        (hw w (List.mem_cons_self _ _)).2 h.1,
      pyReprList_inj vs ws (fun x hx => hv x (List.mem_cons_of_mem _ hx))
        (fun x hx => hw x (List.mem_cons_of_mem _ hx)) h.2]

/-- Renderings of hashable plain values contain no comma. -/
theorem pyRepr_comma_free (v : PyVal) (hh : hashable v = true)
    (hp : plainVal v = true) : ',' ∉ pyReprChars v :=
  marker_not_mem (pyRepr_ok v hh hp) (by decide)

/-! ## Injectivity of the tuple display -/

/-- Characters of a tuple display come from an element's rendering or from
the display's structural characters. -/
theorem tupleChars_mem : ∀ args : List PyVal, ∀ c ∈ tupleChars args,
    (∃ v ∈ args, c ∈ pyReprChars v) ∨ c = '(' ∨ c = ')' ∨ c = ',' ∨ c = ' '
  | [], c, hc => by
    rcases (by simpa [tupleChars] using hc : c = '(' ∨ c = ')') with rfl | rfl
    · exact .inr (.inl rfl)
    · exact .inr (.inr (.inl rfl))
  | [v], c, hc => by
    have hc2 : c ∈ '(' :: (pyReprChars v ++ [',', ')']) := hc
    rcases List.mem_cons.mp hc2 with rfl | hc2
    · exact .inr (.inl rfl)
    · rcases List.mem_append.mp hc2 with hc3 | hc3
      · exact .inl ⟨v, List.mem_singleton_self v, hc3⟩
      · rcases (by simpa using hc3 : c = ',' ∨ c = ')') with rfl | rfl
        · exact .inr (.inr (.inr (.inl rfl)))
        · exact .inr (.inr (.inl rfl))
  | v :: w :: vs, c, hc => by
    have hc2 : c ∈ '(' ::
        (interChars ((v :: w :: vs).map pyReprChars) ++ [')']) := hc
    rcases List.mem_cons.mp hc2 with rfl | hc2
    · exact .inr (.inl rfl)
    · rcases List.mem_append.mp hc2 with hc3 | hc3
      · rcases mem_interChars _ c hc3 with ⟨p, hp, hcp⟩ | hc4
        · rcases List.mem_map.mp hp with ⟨u, hu, rfl⟩
          exact .inl ⟨u, hu, hcp⟩
        · rcases hc4 with rfl | rfl
          · exact .inr (.inr (.inr (.inl rfl)))
          · exact .inr (.inr (.inr (.inr rfl)))
      · rcases List.mem_singleton.mp hc3 with rfl
        exact .inr (.inr (.inl rfl))

/-- A tuple display of hashable plain values never contains an opening
square bracket. -/
theorem tupleChars_no_bracket (args : List PyVal)
    (hgood : ∀ v ∈ args, hashable v = true ∧ plainVal v = true) :
    '[' ∉ tupleChars args := by
  intro h
  rcases tupleChars_mem args '[' h with ⟨v, hv, hcv⟩ | h | h | h | h
  · exact absurd rfl (pieceChar_not_special
      (pyRepr_ok v (hgood v hv).1 (hgood v hv).2 '[' hcv)).2.2.2.2.1
  all_goals exact absurd h (by decide)

/-- Tuple displays of hashable plain values are injective. -/
theorem tupleChars_inj : ∀ args₁ args₂ : List PyVal,
    (∀ v ∈ args₁, hashable v = true ∧ plainVal v = true) →
    (∀ v ∈ args₂, hashable v = true ∧ plainVal v = true) →
    tupleChars args₁ = tupleChars args₂ → args₁ = args₂
  | [], [], _, _, _ => rfl
  | [], [w], _, hg₂, h => by
    exfalso
    have h2 : (['(', ')'] : List Char) = '(' :: (pyReprChars w ++ [',', ')']) := h
    have hlen := congrArg List.length h2
    simp [List.length_append] at hlen
  | [w], [], hg₁, _, h => by
    exfalso
    have h2 : (['(', ')'] : List Char) = '(' :: (pyReprChars w ++ [',', ')']) := h.symm
    have hlen := congrArg List.length h2
    simp [List.length_append] at hlen
  | [], v :: w :: vs, _, _, h => by
    exfalso
    have h2 : (['(', ')'] : List Char)
        = '(' :: (interChars ((v :: w :: vs).map pyReprChars) ++ [')']) := h
    have h3 : ([] : List Char) ++ [')']
        = interChars ((v :: w :: vs).map pyReprChars) ++ [')'] := by
      simpa using h2
    have h4 := (append_singleton_inj h3).1
    simp only [List.map_cons, interChars, sepChars] at h4
    simp [List.append_eq_nil] at h4
  | v :: w :: vs, [], _, _, h => by
    exfalso
    have h2 : (['(', ')'] : List Char)
        = '(' :: (interChars ((v :: w :: vs).map pyReprChars) ++ [')']) := h.symm
    have h3 : ([] : List Char) ++ [')']
        = interChars ((v :: w :: vs).map pyReprChars) ++ [')'] := by
      simpa using h2
    have h4 := (append_singleton_inj h3).1
    simp only [List.map_cons, interChars, sepChars] at h4
    simp [List.append_eq_nil] at h4
  | [v], [w], hg₁, hg₂, h => by
    have h2 : pyReprChars v ++ [',', ')'] = pyReprChars w ++ [',', ')'] := by
      have h3 : '(' :: (pyReprChars v ++ [',', ')'])
          = '(' :: (pyReprChars w ++ [',', ')']) := h
      injection h3
    rw [pyRepr_inj v w (hg₁ v (List.mem_singleton_self v)).1
      (hg₁ v (List.mem_singleton_self v)).2 (hg₂ w (List.mem_singleton_self w)).1
      (hg₂ w (List.mem_singleton_self w)).2 (List.append_cancel_right h2)]
  | [v], w :: x :: ws, hg₁, hg₂, h => by
    exfalso
    have h2 : pyReprChars v ++ ',' :: [')']
        = pyReprChars w ++ ',' :: (' ' ::
            (interChars ((x :: ws).map pyReprChars) ++ [')'])) := by
      have h3 : '(' :: (pyReprChars v ++ [',', ')'])
          = '(' :: (interChars ((w :: x :: ws).map pyReprChars) ++ [')']) := h
      have h4 := (List.cons.injEq _ _ _ _).mp h3
      simpa only [List.map_cons, interChars, sepChars, List.append_assoc,
        List.cons_append, List.nil_append] using h4.2
    obtain ⟨_, htl⟩ := splitMarker ',' _ _ _ _
      (pyRepr_comma_free v (hg₁ v (List.mem_singleton_self v)).1
        (hg₁ v (List.mem_singleton_self v)).2)
      (pyRepr_comma_free w (hg₂ w (List.mem_cons_self _ _)).1
        (hg₂ w (List.mem_cons_self _ _)).2) h2
    simp at htl
  | w :: x :: ws, [v], hg₁, hg₂, h => by
    exfalso
    have h2 : pyReprChars v ++ ',' :: [')']
        = pyReprChars w ++ ',' :: (' ' ::
            (interChars ((x :: ws).map pyReprChars) ++ [')'])) := by
      have h3 : '(' :: (pyReprChars v ++ [',', ')'])
          = '(' :: (interChars ((w :: x :: ws).map pyReprChars) ++ [')']) := h.symm
      have h4 := (List.cons.injEq _ _ _ _).mp h3
      simpa only [List.map_cons, interChars, sepChars, List.append_assoc,
        List.cons_append, List.nil_append] using h4.2
    obtain ⟨_, htl⟩ := splitMarker ',' _ _ _ _
      (pyRepr_comma_free v (hg₂ v (List.mem_singleton_self v)).1
        (hg₂ v (List.mem_singleton_self v)).2)
      (pyRepr_comma_free w (hg₁ w (List.mem_cons_self _ _)).1
        (hg₁ w (List.mem_cons_self _ _)).2) h2
    simp at htl
  | v :: w :: vs, x :: y :: xs, hg₁, hg₂, h => by
    have h2 : interChars ((v :: w :: vs).map pyReprChars) ++ [')']
        = interChars ((x :: y :: xs).map pyReprChars) ++ [')'] := by
      have h3 : '(' :: (interChars ((v :: w :: vs).map pyReprChars) ++ [')'])
          = '(' :: (interChars ((x :: y :: xs).map pyReprChars) ++ [')']) := h
      injection h3
    have h4 := List.append_cancel_right h2
    have hmap := interChars_inj _ _
      (fun p hp => by
        rcases List.mem_map.mp hp with ⟨u, hu, rfl⟩
        exact ⟨pyRepr_comma_free u (hg₁ u hu).1 (hg₁ u hu).2, pyRepr_ne_nil u⟩)
      (fun p hp => by
        rcases List.mem_map.mp hp with ⟨u, hu, rfl⟩
        exact ⟨pyRepr_comma_free u (hg₂ u hu).1 (hg₂ u hu).2, pyRepr_ne_nil u⟩)
      h4
    exact pyReprList_inj _ _ hg₁ hg₂ hmap

/-! ## Injectivity of the sorted kwargs display -/

/-- A kwargs item display followed by any tail determines the name, the
value, and the tail: the name is delimited by the first quote (plain names
contain none) and the value's rendering by the first closing parenthesis
(inert characters contain none). -/
theorem itemChars_split (n₁ n₂ : String) (v₁ v₂ : PyVal) (t₁ t₂ : List Char)
    (hn₁ : n₁.data.all plainChar = true) (hn₂ : n₂.data.all plainChar = true)
    (hh₁ : hashable v₁ = true) (hp₁ : plainVal v₁ = true)
    (hh₂ : hashable v₂ = true) (hp₂ : plainVal v₂ = true)
    (h : itemChars n₁ v₁ ++ t₁ = itemChars n₂ v₂ ++ t₂) :
    n₁ = n₂ ∧ v₁ = v₂ ∧ t₁ = t₂ := by
  have h2 : '(' :: squo ::
        (n₁.data ++ squo :: (',' :: ' ' :: (pyReprChars v₁ ++ ')' :: t₁)))
      = '(' :: squo ::
        (n₂.data ++ squo :: (',' :: ' ' :: (pyReprChars v₂ ++ ')' :: t₂))) := by
    simpa only [itemChars, List.cons_append, List.append_assoc,
      List.nil_append, List.singleton_append] using h
  have h3 : n₁.data ++ squo :: (',' :: ' ' :: (pyReprChars v₁ ++ ')' :: t₁))
      = n₂.data ++ squo :: (',' :: ' ' :: (pyReprChars v₂ ++ ')' :: t₂)) := by
    have h4 := (List.cons.injEq _ _ _ _).mp h2
    have h5 := (List.cons.injEq _ _ _ _).mp h4.2
    exact h5.2
  have hq₁ : squo ∉ n₁.data := fun hm =>
    absurd (List.all_eq_true.mp hn₁ squo hm) (by decide)
  have hq₂ : squo ∉ n₂.data := fun hm =>
    absurd (List.all_eq_true.mp hn₂ squo hm) (by decide)
  obtain ⟨hnd, h4⟩ := splitMarker squo _ _ _ _ hq₁ hq₂ h3
  have h5 : pyReprChars v₁ ++ ')' :: t₁ = pyReprChars v₂ ++ ')' :: t₂ := by
    have h6 := (List.cons.injEq _ _ _ _).mp h4
    have h7 := (List.cons.injEq _ _ _ _).mp h6.2
    exact h7.2
  obtain ⟨hv, ht⟩ := splitMarker ')' _ _ _ _
    (marker_not_mem (pyRepr_ok v₁ hh₁ hp₁) (by decide))
    (marker_not_mem (pyRepr_ok v₂ hh₂ hp₂) (by decide)) h5
  exact ⟨congrArg String.mk hnd, pyRepr_inj v₁ v₂ hh₁ hp₁ hh₂ hp₂ hv, ht⟩

/-- The joined display of sorted kwargs items is injective on item lists of
plain names and hashable plain values. -/
theorem kwItemsChars_inj : ∀ l₁ l₂ : List (String × PyVal),
    (∀ p ∈ l₁, p.1.data.all plainChar = true ∧ hashable p.2 = true
      ∧ plainVal p.2 = true) →
    (∀ p ∈ l₂, p.1.data.all plainChar = true ∧ hashable p.2 = true
      ∧ plainVal p.2 = true) →
    interChars (l₁.map fun p => itemChars p.1 p.2)
      = interChars (l₂.map fun p => itemChars p.1 p.2) → l₁ = l₂
  | [], [], _, _, _ => rfl
  | [], q :: qs, _, _, h => by
    exfalso
    cases qs with
    | nil =>
      have h2 : ([] : List Char) = itemChars q.1 q.2 := h
      simp [itemChars] at h2
    | cons q' qs =>
      have h2 : ([] : List Char) = itemChars q.1 q.2 ++ sepChars
          ++ interChars ((q' :: qs).map fun p => itemChars p.1 p.2) := h
      simp [itemChars, sepChars, List.append_eq_nil] at h2
  | p :: ps, [], _, _, h => by
    exfalso
    cases ps with
    | nil =>
      have h2 : ([] : List Char) = itemChars p.1 p.2 := h.symm
      simp [itemChars] at h2
    | cons p' ps =>
      have h2 : ([] : List Char) = itemChars p.1 p.2 ++ sepChars
          ++ interChars ((p' :: ps).map fun x => itemChars x.1 x.2) := h.symm
      simp [itemChars, sepChars, List.append_eq_nil] at h2
  | [p], [q], hg₁, hg₂, h => by
    have h2 : itemChars p.1 p.2 ++ [] = itemChars q.1 q.2 ++ [] := by
      simpa using h
    obtain ⟨hn, hv, _⟩ := itemChars_split p.1 q.1 p.2 q.2 [] []
      (hg₁ p (List.mem_singleton_self p)).1 (hg₂ q (List.mem_singleton_self q)).1
      (hg₁ p (List.mem_singleton_self p)).2.1 (hg₁ p (List.mem_singleton_self p)).2.2
      (hg₂ q (List.mem_singleton_self q)).2.1 (hg₂ q (List.mem_singleton_self q)).2.2
      h2
    rw [show p = (p.1, p.2) from rfl, show q = (q.1, q.2) from rfl, hn, hv]
  | [p], q :: q' :: qs, hg₁, hg₂, h => by
    exfalso
    have h2 : itemChars p.1 p.2 ++ [] = itemChars q.1 q.2 ++ (',' :: ' ' ::
        interChars ((q' :: qs).map fun x => itemChars x.1 x.2)) := by
      simpa only [List.map_cons, interChars, sepChars, List.append_assoc,
        List.cons_append, List.nil_append, List.append_nil] using h
    obtain ⟨_, _, ht⟩ := itemChars_split p.1 q.1 p.2 q.2 _ _
      (hg₁ p (List.mem_singleton_self p)).1 (hg₂ q (List.mem_cons_self _ _)).1
      (hg₁ p (List.mem_singleton_self p)).2.1 (hg₁ p (List.mem_singleton_self p)).2.2
      (hg₂ q (List.mem_cons_self _ _)).2.1 (hg₂ q (List.mem_cons_self _ _)).2.2
      h2
    exact List.noConfusion ht
  | p :: p' :: ps, [q], hg₁, hg₂, h => by
    exfalso
    have h2 : itemChars q.1 q.2 ++ [] = itemChars p.1 p.2 ++ (',' :: ' ' ::
        interChars ((p' :: ps).map fun x => itemChars x.1 x.2)) := by
      simpa only [List.map_cons, interChars, sepChars, List.append_assoc,
        List.cons_append, List.nil_append, List.append_nil] using h.symm
    obtain ⟨_, _, ht⟩ := itemChars_split q.1 p.1 q.2 p.2 _ _
      (hg₂ q (List.mem_singleton_self q)).1 (hg₁ p (List.mem_cons_self _ _)).1
      (hg₂ q (List.mem_singleton_self q)).2.1 (hg₂ q (List.mem_singleton_self q)).2.2
      (hg₁ p (List.mem_cons_self _ _)).2.1 (hg₁ p (List.mem_cons_self _ _)).2.2
      h2
    exact List.noConfusion ht
  | p :: p' :: ps, q :: q' :: qs, hg₁, hg₂, h => by
    have h2 : itemChars p.1 p.2 ++ (',' :: ' ' ::
          interChars ((p' :: ps).map fun x => itemChars x.1 x.2))
        = itemChars q.1 q.2 ++ (',' :: ' ' ::
          interChars ((q' :: qs).map fun x => itemChars x.1 x.2)) := by
      simpa only [List.map_cons, interChars, sepChars, List.append_assoc,
        List.cons_append, List.nil_append] using h
    obtain ⟨hn, hv, ht⟩ := itemChars_split p.1 q.1 p.2 q.2 _ _
      (hg₁ p (List.mem_cons_self _ _)).1 (hg₂ q (List.mem_cons_self _ _)).1
      (hg₁ p (List.mem_cons_self _ _)).2.1 (hg₁ p (List.mem_cons_self _ _)).2.2
      (hg₂ q (List.mem_cons_self _ _)).2.1 (hg₂ q (List.mem_cons_self _ _)).2.2
      h2
    have ht2 : interChars ((p' :: ps).map fun x => itemChars x.1 x.2)
        = interChars ((q' :: qs).map fun x => itemChars x.1 x.2) := by
      have := (List.cons.injEq _ _ _ _).mp ht
      have := (List.cons.injEq _ _ _ _).mp this.2
      exact this.2
    have htail := kwItemsChars_inj (p' :: ps) (q' :: qs)
      (fun x hx => hg₁ x (List.mem_cons_of_mem _ hx))
      (fun x hx => hg₂ x (List.mem_cons_of_mem _ hx)) ht2
    rw [show p = (p.1, p.2) from rfl, show q = (q.1, q.2) from rfl, hn, hv, htail]

/-- Unpacking the argument part of a plain call. -/
theorem plainCall_args {a : Call} (ha : plainCall a = true) :
    ∀ v ∈ a.args, hashable v = true ∧ plainVal v = true := by
  intro v hv
  simp only [plainCall, Bool.and_eq_true, List.all_eq_true] at ha
  exact ha.1 v hv

/-- Unpacking the kwargs part of a plain call. -/
theorem plainCall_kwargs {a : Call} (ha : plainCall a = true) :
    ∀ p ∈ a.kwargs, p.1.data.all plainChar = true ∧ hashable p.2 = true
      ∧ plainVal p.2 = true := by
  intro p hp
  simp only [plainCall, Bool.and_eq_true, List.all_eq_true] at ha
  exact ⟨List.all_eq_true.mpr (ha.2 p hp).1, (ha.2 p hp).2⟩

/-- The cache key of `decorator.py` is injective on plain calls with
unique names, up to the insertion order of the named arguments: equal keys
force equal positional arguments and permuted-equal kwargs. -/
theorem cacheKey_inj (a b : Call) (ha : plainCall a = true)
    (hb : plainCall b = true) (h : cacheKey a = cacheKey b) :
    a.args = b.args ∧ a.kwargs.Perm b.kwargs := by
  have hkws₁ : ∀ p ∈ sortKw a.kwargs, p.1.data.all plainChar = true
      ∧ hashable p.2 = true ∧ plainVal p.2 = true :=
    fun p hp => plainCall_kwargs ha p ((sortKw_perm _).subset hp)
  have hkws₂ : ∀ p ∈ sortKw b.kwargs, p.1.data.all plainChar = true
      ∧ hashable p.2 = true ∧ plainVal p.2 = true :=
    fun p hp => plainCall_kwargs hb p ((sortKw_perm _).subset hp)
  have h2 : tupleChars a.args ++ '[' ::
        (interChars ((sortKw a.kwargs).map fun p => itemChars p.1 p.2) ++ [']'])
      = tupleChars b.args ++ '[' ::
        (interChars ((sortKw b.kwargs).map fun p => itemChars p.1 p.2) ++ [']']) := h
  obtain ⟨hT, hY⟩ := splitMarker '[' _ _ _ _
    (tupleChars_no_bracket _ (plainCall_args ha))
    (tupleChars_no_bracket _ (plainCall_args hb)) h2
  have hargs := tupleChars_inj _ _ (plainCall_args ha) (plainCall_args hb) hT
  have hsorted := kwItemsChars_inj _ _ hkws₁ hkws₂ (List.append_cancel_right hY)
  refine ⟨hargs, ?_⟩
  have hp2 : (sortKw a.kwargs).Perm b.kwargs := by
    rw [hsorted]; exact sortKw_perm b.kwargs
  exact (sortKw_perm a.kwargs).symm.trans hp2

/-- C6: distinct argument tuples — plain hashable calls that do not agree as
positional lists plus kwargs mappings (equality of kwargs up to insertion
order) — have independent cache entries: their keys differ, calling with `a`
leaves every lookup for `b` unchanged, and a subsequent call with `b` still
misses (invoking the computation) if `b` was never computed, and still
returns `b`'s own stored first result if it was. -/
theorem c6_entries_independent {R : Type} (func : Nat → Call → R)
    (s : MemoState R) (a b : Call) (ha : plainCall a = true)
    (hb : plainCall b = true)
    (hne : ¬ (a.args = b.args ∧ a.kwargs.Perm b.kwargs)) :
    cacheKey a ≠ cacheKey b ∧
    dictGet (cacheKey b) (callMemo func s a).2.cache
      = dictGet (cacheKey b) s.cache ∧
    (dictGet (cacheKey b) s.cache = none →
      (callMemo func (callMemo func s a).2 b).1
        = func (callMemo func s a).2.invocations b) ∧
    (∀ v, dictGet (cacheKey b) s.cache = some v →
      (callMemo func (callMemo func s a).2 b).1 = v) := by
  have hkey : cacheKey a ≠ cacheKey b :=
    fun he => hne (cacheKey_inj a b ha hb he)
  have hframe : dictGet (cacheKey b) (callMemo func s a).2.cache
      = dictGet (cacheKey b) s.cache := by
    cases hl : dictGet (cacheKey a) s.cache with
    | some v => rw [callMemo_hit func s a v hl]
    | none =>
      rw [callMemo_miss func s a hl]
      simp [dictGet, Ne.symm hkey]
  refine ⟨hkey, hframe, ?_, ?_⟩
  · intro hmiss
    rw [callMemo_miss func _ b (hframe.trans hmiss)]
  · intro v hsome
    rw [callMemo_hit func _ b v (hframe.trans hsome)]

/-- Witness for C6 at the distinct tuples `(4,)` and `(5,)` over a fresh
cache: the keys differ, storing `(4,)`'s result does not affect `(5,)`'s
lookup, and the subsequent `(5,)` call still misses. -/
theorem c6_entries_independent_witness :
    plainCall ⟨[.int 4], []⟩ = true ∧
    plainCall ⟨[.int 5], []⟩ = true ∧
    ¬ ((⟨[.int 4], []⟩ : Call).args = (⟨[.int 5], []⟩ : Call).args ∧
        (⟨[.int 4], []⟩ : Call).kwargs.Perm (⟨[.int 5], []⟩ : Call).kwargs) ∧
    cacheKey ⟨[.int 4], []⟩ ≠ cacheKey ⟨[.int 5], []⟩ ∧
    dictGet (cacheKey ⟨[.int 5], []⟩)
        (callMemo (fun i _ => i) initMemo ⟨[.int 4], []⟩).2.cache
      = dictGet (cacheKey ⟨[.int 5], []⟩) (initMemo (R := Nat)).cache ∧
    (callMemo (fun i _ => i)
        (callMemo (fun i _ => i) initMemo ⟨[.int 4], []⟩).2 ⟨[.int 5], []⟩).1
      = (callMemo (fun i _ => i) initMemo ⟨[.int 4], []⟩).2.invocations := by
  have h := c6_entries_independent (fun i _ => i) initMemo
    ⟨[.int 4], []⟩ ⟨[.int 5], []⟩ (by decide) (by decide) (by decide)
  exact ⟨by decide, by decide, by decide, h.1, h.2.1, h.2.2.1 rfl⟩

/-! ## The memoized fibonacci refines the uncached recurrence -/

/-- Integer keys are injective: `str((n,)) + str([])` determines `n`. -/
theorem cacheKey_int_inj (n m : Int)
    (h : cacheKey ⟨[.int n], []⟩ = cacheKey ⟨[.int m], []⟩) : n = m := by
  have hp : ∀ k : Int, plainCall ⟨[.int k], []⟩ = true := by
    intro k
    simp [plainCall, hashable, plainVal]
  have h2 := (cacheKey_inj _ _ (hp n) (hp m) h).1
  simpa using h2

/-- The recurrence below its base point. -/
theorem fibSpec_le_one (n : Int) (h : n ≤ 1) : fibSpec n = n := by
  rw [fibSpec, if_pos h]

/-- The recurrence above its base point. -/
theorem fibSpec_rec (n : Int) (h : ¬ n ≤ 1) :
    fibSpec n = fibSpec (n - 1) + fibSpec (n - 2) := by
  rw [fibSpec, if_neg h]

/-- A cache hit of the memoized fibonacci. -/
theorem fibMemo_hit (n : Int) (c : List (List Char × Int)) (v : Int)
    (h : dictGet (cacheKey ⟨[.int n], []⟩) c = some v) : fibMemo n c = (v, c) := by
  rw [fibMemo]
  simp [h]

/-- A cache miss of the memoized fibonacci at a base argument. -/
theorem fibMemo_base (n : Int) (c : List (List Char × Int))
    (h : dictGet (cacheKey ⟨[.int n], []⟩) c = none) (h1 : n ≤ 1) :
    fibMemo n c = (n, (cacheKey ⟨[.int n], []⟩, n) :: c) := by
  rw [fibMemo]
  simp [h, h1]

/-- A cache miss of the memoized fibonacci at a recursive argument. -/
theorem fibMemo_step (n : Int) (c : List (List Char × Int))
    (h : dictGet (cacheKey ⟨[.int n], []⟩) c = none) (h1 : ¬ n ≤ 1) :
    fibMemo n c =
      ((fibMemo (n - 1) c).1 + (fibMemo (n - 2) (fibMemo (n - 1) c).2).1,
        (cacheKey ⟨[.int n], []⟩,
          (fibMemo (n - 1) c).1 + (fibMemo (n - 2) (fibMemo (n - 1) c).2).1)
          :: (fibMemo (n - 2) (fibMemo (n - 1) c).2).2) := by
  rw [fibMemo]
  simp [h, h1]

/-- Storing the recurrence's value under a key preserves cache validity. -/
theorem fibCacheOK_insert (c : List (List Char × Int)) (hc : FibCacheOK c)
    (n : Int) : FibCacheOK ((cacheKey ⟨[.int n], []⟩, fibSpec n) :: c) := by
  intro m v hm
  by_cases he : cacheKey ⟨[.int m], []⟩ = cacheKey ⟨[.int n], []⟩
  · have hmn : m = n := cacheKey_int_inj m n he
    subst hmn
    simp only [dictGet, if_pos he] at hm
    exact (Option.some.injEq _ _).mp hm.symm
  · simp only [dictGet, if_neg he] at hm
    exact hc m v hm

/-- On a valid cache, the memoized fibonacci returns the recurrence's value
and leaves the cache valid. -/
theorem fibMemo_correct_aux : ∀ k : Nat, ∀ n : Int, n.toNat < k →
    ∀ c, FibCacheOK c → (fibMemo n c).1 = fibSpec n ∧ FibCacheOK (fibMemo n c).2
  | 0, n, h, _, _ => absurd h (by omega)
  | k + 1, n, hk, c, hc => by
    cases hl : dictGet (cacheKey ⟨[.int n], []⟩) c with
    | some v =>
      rw [fibMemo_hit n c v hl]
      exact ⟨hc n v hl, hc⟩
    | none =>
      by_cases h1 : n ≤ 1
      · rw [fibMemo_base n c hl h1]
        refine ⟨(fibSpec_le_one n h1).symm, ?_⟩
        have hins := fibCacheOK_insert c hc n
        rw [fibSpec_le_one n h1] at hins
        exact hins
      · have hlt1 : (n - 1).toNat < k := by omega
        have hlt2 : (n - 2).toNat < k := by omega
        obtain ⟨e1, hc1⟩ := fibMemo_correct_aux k (n - 1) hlt1 c hc
        obtain ⟨e2, hc2⟩ :=
          fibMemo_correct_aux k (n - 2) hlt2 (fibMemo (n - 1) c).2 hc1
        rw [fibMemo_step n c hl h1]
        constructor
        · rw [e1, e2, fibSpec_rec n h1]
        · have hv : fibSpec (n - 1) + fibSpec (n - 2) = fibSpec n :=
            (fibSpec_rec n h1).symm
          have hins := fibCacheOK_insert _ hc2 n
          rw [← hv, ← e1, ← e2] at hins
          exact hins

/-- The recurrence agrees with the Fibonacci sequence on naturals. -/
theorem fibSpec_nat_aux : ∀ K k : Nat, k < K → fibSpec (k : Int) = Nat.fib k
  | 0, k, h => absurd h (by omega)
  | K + 1, 0, _ => by
    rw [fibSpec_le_one _ (by norm_num)]
    simp
  | K + 1, 1, _ => by
    rw [fibSpec_le_one _ (by norm_num)]
    simp
  | K + 1, k + 2, hK => by
    have e1 : ((k + 2 : Nat) : Int) - 1 = ((k + 1 : Nat) : Int) := by
      push_cast; ring
    have e2 : ((k + 2 : Nat) : Int) - 2 = ((k : Nat) : Int) := by
      push_cast; ring
    rw [fibSpec_rec _ (by push_cast; omega), e1, e2,
      fibSpec_nat_aux K (k + 1) (by omega), fibSpec_nat_aux K k (by omega),
      Nat.fib_add_two]
    push_cast
    ring

/-- C10: wrapping the recursive fibonacci with the cache decorator does not
change its input-output behaviour — for every integer `n`, the memoized
fibonacci started on the fresh empty cache returns the value of the uncached
recurrence (`n` for `n ≤ 1`, otherwise the sum of the two preceding values),
and for `n ≥ 0` that value is the `n`-th Fibonacci number (`fib 0 = 0`,
`fib 1 = 1`). -/
theorem c10_fib_refinement (n : Int) :
    (fibMemo n []).1 = fibSpec n ∧
    fibSpec n = if 0 ≤ n then ((Nat.fib n.toNat : Nat) : Int) else n := by
  constructor
  · exact (fibMemo_correct_aux (n.toNat + 1) n (by omega) []
      (fun m v hm => by simp [dictGet] at hm)).1
  · by_cases h : 0 ≤ n
    · rw [if_pos h]
      have h2 : fibSpec n = fibSpec ((n.toNat : Nat) : Int) := by
        rw [Int.toNat_of_nonneg h]
      rw [h2, fibSpec_nat_aux (n.toNat + 1) n.toNat (by omega)]
    · rw [if_neg h, fibSpec_le_one n (by omega)]

end PyCache
